import Mathlib

/-!
Shallow embedding of the MTWM_TimeImprovement repository core
(`core/dfmm.py`, `core/model/problem.py`, `core/solver/engine.py`)
together with proofs of the specification's claims about it.
-/

namespace MTWM

/-! ## §1  RatioFactorizer (`core/dfmm.py`, `find_factors_for_sum`)

The python loop body scans divisors from `max_factor` down to `2` and keeps
the first one dividing the remaining sum.  `findDivisorFrom remaining d`
embeds the inner `for divisor in range(max_factor, 1, -1)` scan. -/

def findDivisorFrom (remaining : Nat) : Nat → Option Nat
  | 0 => none
  | 1 => none
  | d + 2 =>
    if remaining % (d + 2) = 0 then some (d + 2) else findDivisorFrom remaining (d + 1)

theorem findDivisorFrom_eq_some (r : Nat) :
    ∀ d k, findDivisorFrom r d = some k → 2 ≤ k ∧ k ∣ r ∧ k ≤ d := by
  intro d
  induction d using Nat.strong_induction_on with
  | _ d ih =>
    match d with
    | 0 => intro k hk; simp [findDivisorFrom] at hk
    | 1 => intro k hk; simp [findDivisorFrom] at hk
    | d + 2 =>
      intro k hk
      rw [findDivisorFrom] at hk
      by_cases hc : r % (d + 2) = 0
      · rw [if_pos hc] at hk
        injection hk with hk
        subst hk
        exact ⟨by omega, Nat.dvd_of_mod_eq_zero hc, by omega⟩
      · rw [if_neg hc] at hk
        obtain ⟨h1, h2, h3⟩ := ih (d + 1) (by omega) k hk
        exact ⟨h1, h2, by omega⟩

theorem findDivisorFrom_isSome (r : Nat) :
    ∀ d k, 2 ≤ k → k ≤ d → k ∣ r → (findDivisorFrom r d).isSome := by
  intro d
  induction d using Nat.strong_induction_on with
  | _ d ih =>
    match d with
    | 0 => intro k h2 hd _; omega
    | 1 => intro k h2 hd _; omega
    | d + 2 =>
      intro k h2 hd hdvd
      rw [findDivisorFrom]
      by_cases hc : r % (d + 2) = 0
      · rw [if_pos hc]; rfl
      · rw [if_neg hc]
        have hkne : k ≠ d + 2 := by
          intro he
          apply hc
          subst he
          exact Nat.mod_eq_zero_of_dvd hdvd
        exact ih (d + 1) (by omega) k h2 (by omega) hdvd

/-- The `while remaining_sum > 1` loop of `find_factors_for_sum`: repeatedly
divide the remaining sum by the largest admissible divisor, collecting the
divisors in discovery order; `none` when no divisor in `[2, maxFactor]`
divides the remaining sum. -/
def factorLoop (maxFactor : Nat) (remaining : Nat) : Option (List Nat) :=
  if h : remaining ≤ 1 then some []
  else
    match hf : findDivisorFrom remaining maxFactor with
    | none => none
    | some d => (factorLoop maxFactor (remaining / d)).map (fun l => d :: l)
termination_by remaining
decreasing_by
  · have h2 := (findDivisorFrom_eq_some remaining maxFactor d hf).1
    exact Nat.div_lt_self (by omega) (by omega)

/-- Embedding of `find_factors_for_sum(ratio_sum, max_factor)` from
`core/dfmm.py`: returns `[]` when the sum is at most 1, otherwise runs the
greedy divisor loop and sorts the collected factors in descending order. -/
def find_factors_for_sum (ratio_sum maxFactor : Nat) : Option (List Nat) :=
  if ratio_sum ≤ 1 then some []
  else (factorLoop maxFactor ratio_sum).map
    (fun l => l.mergeSort (fun a b => decide (b ≤ a)))

/-- Invariant of the greedy loop: a successful run returns factors whose
product is the remaining sum and each of which lies in `[2, maxFactor]`. -/
theorem factorLoop_spec (mf : Nat) :
    ∀ r l, 1 ≤ r → factorLoop mf r = some l →
      l.prod = r ∧ ∀ x ∈ l, 2 ≤ x ∧ x ≤ mf := by
  intro r
  induction r using Nat.strong_induction_on with
  | _ r ih =>
    intro l hr hl
    rw [factorLoop] at hl
    split at hl
    · cases hl
      refine ⟨by simp; omega, by simp⟩
    · rename_i h1
      split at hl
      · exact absurd hl (by simp)
      · rename_i d hf
        cases hrec : factorLoop mf (r / d) with
        | none => rw [hrec] at hl; exact Option.noConfusion hl
        | some tl =>
          rw [hrec] at hl
          simp only [Option.map_some', Option.some.injEq] at hl
          obtain ⟨h2, hdvd, hle⟩ := findDivisorFrom_eq_some r mf d hf
          have hdivlt : r / d < r := Nat.div_lt_self (by omega) (by omega)
          have hdivge : 1 ≤ r / d :=
            (Nat.one_le_div_iff (by omega)).mpr (Nat.le_of_dvd (by omega) hdvd)
          obtain ⟨hprod, hbnd⟩ := ih (r / d) hdivlt tl hdivge hrec
          subst hl
          constructor
          · simp only [List.prod_cons, hprod]
            exact Nat.mul_div_cancel' hdvd
          · intro x hx
            rcases List.mem_cons.mp hx with he | hm
            · subst he; exact ⟨h2, hle⟩
            · exact hbnd x hm

/-- Invariant of the greedy loop: when every prime factor of the remaining
sum is at most `maxFactor`, the loop succeeds. -/
theorem factorLoop_isSome (mf : Nat) :
    ∀ r, 1 ≤ r → (∀ p, p.Prime → p ∣ r → p ≤ mf) → (factorLoop mf r).isSome := by
  intro r
  induction r using Nat.strong_induction_on with
  | _ r ih =>
    intro hr hp
    rw [factorLoop]
    split
    · rfl
    · rename_i h1
      have hrne1 : r ≠ 1 := by omega
      have hpm : (r.minFac).Prime := Nat.minFac_prime hrne1
      have hdvd : r.minFac ∣ r := Nat.minFac_dvd r
      have hple : r.minFac ≤ mf := hp _ hpm hdvd
      have hsome := findDivisorFrom_isSome r mf r.minFac hpm.two_le hple hdvd
      split
      · rename_i hf
        rw [hf] at hsome; simp at hsome
      · rename_i d hf
        obtain ⟨h2, hdvd', _⟩ := findDivisorFrom_eq_some r mf d hf
        have hdivlt : r / d < r := Nat.div_lt_self (by omega) (by omega)
        have hdivge : 1 ≤ r / d :=
          (Nat.one_le_div_iff (by omega)).mpr (Nat.le_of_dvd (by omega) hdvd')
        have hdiv_dvd : r / d ∣ r := Nat.div_dvd_of_dvd hdvd'
        have hrec := ih (r / d) hdivlt hdivge
          (fun p hpp hpd => hp p hpp (dvd_trans hpd hdiv_dvd))
        cases hrec2 : factorLoop mf (r / d) with
        | none => rw [hrec2] at hrec; simp at hrec
        | some tl => simp

theorem prime_dvd_list_prod {p : Nat} (hp : p.Prime) :
    ∀ l : List Nat, p ∣ l.prod → ∃ x ∈ l, p ∣ x := by
  intro l
  induction l with
  | nil =>
    intro h
    simp at h
    exact absurd h hp.ne_one
  | cons x xs ih =>
    intro h
    rw [List.prod_cons] at h
    rcases (Nat.Prime.dvd_mul hp).mp h with hx | hxs
    · exact ⟨x, List.mem_cons_self x xs, hx⟩
    · obtain ⟨y, hy, hpy⟩ := ih hxs
      exact ⟨y, List.mem_cons_of_mem x hy, hpy⟩

/-- **C3**: for `s > 1` and `max_factor ≥ 2`, when every prime factor of `s`
is at most `max_factor`, `find_factors_for_sum` returns a descending list of
factors in `[2, max_factor]` whose product is `s`; when `s` has a prime
factor above `max_factor` it returns `none`; and for any sum at most 1 it
returns the empty list. -/
theorem C3_find_factors_correct (s mf : Nat) (hs : 1 < s) (hmf : 2 ≤ mf) :
    ((∀ p, p.Prime → p ∣ s → p ≤ mf) →
      ∃ l, find_factors_for_sum s mf = some l ∧ l.prod = s ∧
        (∀ x ∈ l, 2 ≤ x ∧ x ≤ mf) ∧ List.Sorted (fun a b => b ≤ a) l) ∧
    ((∃ p, p.Prime ∧ p ∣ s ∧ mf < p) → find_factors_for_sum s mf = none) ∧
    (∀ t, t ≤ 1 → find_factors_for_sum t mf = some []) := by
  have hnotle : ¬ s ≤ 1 := by omega
  refine ⟨?_, ?_, ?_⟩
  · intro hp
    have hsome := factorLoop_isSome mf s (by omega) hp
    cases hl0 : factorLoop mf s with
    | none => rw [hl0] at hsome; simp at hsome
    | some l0 =>
      obtain ⟨hprod, hbnd⟩ := factorLoop_spec mf s l0 (by omega) hl0
      refine ⟨l0.mergeSort (fun a b => decide (b ≤ a)), ?_, ?_, ?_, ?_⟩
      · rw [find_factors_for_sum, if_neg hnotle, hl0]
        rfl
      · rw [(List.mergeSort_perm l0 _).prod_eq, hprod]
      · intro x hx
        exact hbnd x ((List.mergeSort_perm l0 _).mem_iff.mp hx)
      · have hsorted := @List.sorted_mergeSort Nat
          (fun a b : Nat => decide (b ≤ a))
          (fun a b c hab hbc => by
            simp only [decide_eq_true_iff] at *
            omega)
          (fun a b => by
            simp only [Bool.or_eq_true, decide_eq_true_iff]
            omega)
          l0
        exact hsorted.imp (fun h => by simpa using h)
  · rintro ⟨p, hp, hdvd, hgt⟩
    rw [find_factors_for_sum, if_neg hnotle]
    cases hl0 : factorLoop mf s with
    | none => rfl
    | some l0 =>
      obtain ⟨hprod, hbnd⟩ := factorLoop_spec mf s l0 (by omega) hl0
      rw [← hprod] at hdvd
      obtain ⟨x, hx, hpx⟩ := prime_dvd_list_prod hp l0 hdvd
      obtain ⟨hx2, hxmf⟩ := hbnd x hx
      have : p ≤ x := Nat.le_of_dvd (by omega) hpx
      omega
  · intro t ht
    rw [find_factors_for_sum, if_pos ht]

/-- Witness for C3 at the spec's own example `s = 18`, `max_factor = 5`. -/
theorem C3_witness :
    1 < 18 ∧ 2 ≤ 5 ∧
      ∃ l, find_factors_for_sum 18 5 = some l ∧ l.prod = 18 ∧
        (∀ x ∈ l, 2 ≤ x ∧ x ≤ 5) ∧ List.Sorted (fun a b => b ≤ a) l := by
  refine ⟨by norm_num, by norm_num, ?_⟩
  apply (C3_find_factors_correct 18 5 (by norm_num) (by norm_num)).1
  intro p hp hdvd
  have h18 : p ≤ 18 := Nat.le_of_dvd (by norm_num) hdvd
  have h2 : 2 ≤ p := hp.two_le
  interval_cases p <;> revert hp hdvd <;> decide

/-! ## §2  TreeBuilder (`core/dfmm.py`, `build_dfmm_forest`)

A tree is an association list from node ids `(level, node_idx)` to the
node's list of children, mirroring the python `tree_structure` dict. -/

abbrev NodeId := Nat × Nat

abbrev TreeStruct := List (NodeId × List NodeId)

structure Target where
  ratios : List Nat
  factors : List Nat

/-- `math.ceil(total / f)` for naturals (exact for the integer inputs the
python code divides). -/
def ceilDiv (total f : Nat) : Nat := (total + f - 1) / f

/-- `num_nodes_at_level`: `ceil(total / f)` when the total input is
positive, else `0`. -/
def numNodesAtLevel (total f : Nat) : Nat :=
  if 0 < total then ceilDiv total f else 0

/-- Total inputs at a level: sum of the per-reagent remainders plus the
number of child nodes coming up from the previously processed level. -/
def levelTotal (f : Nat) (st : List Nat × List NodeId) : Nat :=
  (st.1.map (· % f)).sum + st.2.length

/-- The tree entries created by one iteration of the level loop: `num`
nodes `(level, k)`, parent `k` receiving the children whose position in
`child_node_ids` is congruent to `k` modulo `num` (round-robin), in their
original order. -/
def levelEntries (level f : Nat) (st : List Nat × List NodeId) : TreeStruct :=
  let num := numNodesAtLevel (levelTotal f st) f
  (List.range num).map (fun k =>
    ((level, k), (st.2.enum.filter (fun p => p.1 % num == k)).map Prod.snd))

/-- State transformation of one iteration: the quotients become the next
`values_to_process` and the freshly created node ids the next
`child_node_ids`. -/
def stepState (level f : Nat) (st : List Nat × List NodeId) :
    List Nat × List NodeId :=
  let num := numNodesAtLevel (levelTotal f st) f
  (st.1.map (· / f), (List.range num).map (fun k => (level, k)))

/-- The level loop of `build_dfmm_forest`, recursing on the number of
levels still to process (`n` levels remaining means level `n - 1` is
processed next, down to level `0`). -/
def buildLevelsAux (factors : List Nat) :
    Nat → List Nat × List NodeId → TreeStruct
  | 0, _ => []
  | n + 1, st =>
    levelEntries n (factors.getD n 0) st
      ++ buildLevelsAux factors n (stepState n (factors.getD n 0) st)

/-- Embedding of `build_dfmm_forest` for a single target. -/
def build_dfmm_tree (target : Target) : TreeStruct :=
  buildLevelsAux target.factors target.factors.length (target.ratios, [])

/-- Embedding of `build_dfmm_forest`. -/
def build_dfmm_forest (targets : List Target) : List TreeStruct :=
  targets.map build_dfmm_tree

/-- The `(values_to_process, child_node_ids)` state after the first `k`
iterations of the level loop. -/
def dfmmStateAfter (factors ratios : List Nat) : Nat → List Nat × List NodeId
  | 0 => (ratios, [])
  | k + 1 =>
    let lvl := factors.length - 1 - k
    stepState lvl (factors.getD lvl 0) (dfmmStateAfter factors ratios k)

/-- Number of nodes of the tree that sit at a given level. -/
def countNodesAt (tree : TreeStruct) (lvl : Nat) : Nat :=
  tree.countP (fun e => e.1.1 == lvl)

/-- The children recorded for a node id (empty when absent), mirroring
`tree_structure.get(node_id, {}).get("children", [])`. -/
def childrenOf (tree : TreeStruct) (nd : NodeId) : List NodeId :=
  ((tree.find? (fun e => e.1 == nd)).map Prod.snd).getD []

theorem buildLevelsAux_level_lt (factors : List Nat) :
    ∀ n st, ∀ e ∈ buildLevelsAux factors n st, e.1.1 < n := by
  intro n
  induction n with
  | zero => intro st e he; simp [buildLevelsAux] at he
  | succ n ih =>
    intro st e he
    rw [buildLevelsAux] at he
    rcases List.mem_append.mp he with hh | ht
    · rw [levelEntries] at hh
      simp only [List.mem_map, List.mem_range] at hh
      obtain ⟨k, _, hk⟩ := hh
      rw [← hk]
      simpa using Nat.lt_succ_self n
    · have := ih _ e ht
      omega

/-- Splitting the run of the level loop after its first `k` iterations:
the whole output is the entries already produced (all at levels at least
`L - k`) followed by the output of the remaining iterations started from
the intermediate state. -/
theorem buildLevelsAux_decomp (factors ratios : List Nat) :
    ∀ k, k ≤ factors.length →
      ∃ pre : TreeStruct,
        (∀ e ∈ pre, factors.length - k ≤ e.1.1) ∧
        buildLevelsAux factors factors.length (ratios, []) =
          pre ++ buildLevelsAux factors (factors.length - k)
            (dfmmStateAfter factors ratios k) := by
  intro k
  induction k with
  | zero =>
    intro _
    exact ⟨[], by simp, by simp [dfmmStateAfter]⟩
  | succ k ih =>
    intro hk
    obtain ⟨pre, hpre, heq⟩ := ih (by omega)
    have hrem : factors.length - k = (factors.length - (k + 1)) + 1 := by omega
    rw [hrem, buildLevelsAux] at heq
    refine ⟨pre ++ levelEntries (factors.length - (k + 1))
      (factors.getD (factors.length - (k + 1)) 0)
      (dfmmStateAfter factors ratios k), ?_, ?_⟩
    · intro e he
      rcases List.mem_append.mp he with hp | hl
      · have := hpre e hp; omega
      · rw [levelEntries] at hl
        simp only [List.mem_map, List.mem_range] at hl
        obtain ⟨j, _, hj⟩ := hl
        rw [← hj]
    · rw [heq, List.append_assoc]
      congr 1
      congr 1
      show buildLevelsAux factors (factors.length - (k + 1)) _ =
        buildLevelsAux factors (factors.length - (k + 1)) _
      congr 1
      show stepState _ _ _ = dfmmStateAfter factors ratios (k + 1)
      rw [dfmmStateAfter]
      have : factors.length - 1 - k = factors.length - (k + 1) := by omega
      rw [this]

theorem countNodesAt_append (t1 t2 : TreeStruct) (lvl : Nat) :
    countNodesAt (t1 ++ t2) lvl = countNodesAt t1 lvl + countNodesAt t2 lvl :=
  List.countP_append _ t1 t2

theorem countNodesAt_eq_zero_of_lt (t : TreeStruct) (lvl : Nat)
    (h : ∀ e ∈ t, lvl < e.1.1) : countNodesAt t lvl = 0 := by
  rw [countNodesAt, List.countP_eq_zero]
  intro e he
  have := h e he
  simp only [beq_iff_eq]
  omega

theorem countNodesAt_eq_zero_of_gt (t : TreeStruct) (lvl : Nat)
    (h : ∀ e ∈ t, e.1.1 < lvl) : countNodesAt t lvl = 0 := by
  rw [countNodesAt, List.countP_eq_zero]
  intro e he
  have := h e he
  simp only [beq_iff_eq]
  omega

theorem countNodesAt_levelEntries (level f : Nat) (st : List Nat × List NodeId) :
    countNodesAt (levelEntries level f st) level =
      numNodesAtLevel (levelTotal f st) f := by
  rw [countNodesAt, levelEntries]
  rw [List.countP_eq_length.mpr]
  · simp
  · intro e he
    simp only [List.mem_map, List.mem_range] at he
    obtain ⟨k, _, hk⟩ := he
    rw [← hk]
    simp

/-- The number of nodes the built tree holds at level `lvl` is exactly the
node count of the iteration that processed level `lvl`. -/
theorem countNodesAt_build (ratios factors : List Nat) (lvl : Nat)
    (hlvl : lvl < factors.length) :
    countNodesAt (build_dfmm_tree ⟨ratios, factors⟩) lvl =
      numNodesAtLevel
        (levelTotal (factors.getD lvl 0)
          (dfmmStateAfter factors ratios (factors.length - lvl - 1)))
        (factors.getD lvl 0) := by
  obtain ⟨pre, hpre, heq⟩ :=
    buildLevelsAux_decomp factors ratios (factors.length - lvl - 1) (by omega)
  have hrem : factors.length - (factors.length - lvl - 1) = lvl + 1 := by omega
  rw [build_dfmm_tree] at *
  simp only [hrem] at heq
  rw [heq, buildLevelsAux, countNodesAt_append, countNodesAt_append]
  rw [countNodesAt_eq_zero_of_lt pre lvl (fun e he => by have := hpre e he; omega)]
  rw [countNodesAt_eq_zero_of_gt _ lvl
    (fun e he => buildLevelsAux_level_lt factors lvl _ e he)]
  rw [countNodesAt_levelEntries]
  omega

theorem find?_levelEntries_aux (lvl : Nat) (h : Nat → List NodeId) :
    ∀ num k, k < num →
      ((List.range num).map (fun j => ((lvl, j), h j))).find?
        (fun e => e.1 == (lvl, k)) = some ((lvl, k), h k) := by
  intro num
  induction num with
  | zero => intro k hk; omega
  | succ n ih =>
    intro k hk
    rw [List.range_succ, List.map_append, List.find?_append]
    by_cases hkn : k < n
    · rw [ih k hkn]; rfl
    · have hkeq : k = n := by omega
      rw [hkeq]
      have hnone : ((List.range n).map (fun j => ((lvl, j), h j))).find?
          (fun e => e.1 == (lvl, n)) = none := by
        rw [List.find?_eq_none]
        intro x hx
        simp only [List.mem_map, List.mem_range] at hx
        obtain ⟨j, hj, hjx⟩ := hx
        rw [← hjx]
        simp only [beq_iff_eq, Prod.mk.injEq]
        omega
      rw [hnone]
      simp

/-- Lookup of a freshly created node inside the entries of its own
iteration: parent `(lvl, k)` holds the round-robin sublist of the incoming
children. -/
theorem childrenOf_levelEntries (level f : Nat) (st : List Nat × List NodeId)
    (k : Nat) (hk : k < numNodesAtLevel (levelTotal f st) f) :
    (levelEntries level f st).find? (fun e => e.1 == (level, k)) =
      some ((level, k),
        (st.2.enum.filter
          (fun p => p.1 % numNodesAtLevel (levelTotal f st) f == k)).map
            Prod.snd) := by
  rw [levelEntries]
  exact find?_levelEntries_aux level _ _ k hk

/-- Total pending load of a state: the values still to be processed plus
one unit per child node waiting to be connected. -/
def totalLoad (st : List Nat × List NodeId) : Nat := st.1.sum + st.2.length

theorem sum_mod_add_mul_sum_div (f : Nat) (v : List Nat) :
    (v.map (· % f)).sum + f * (v.map (· / f)).sum = v.sum := by
  induction v with
  | nil => simp
  | cons x xs ih =>
    simp only [List.map_cons, List.sum_cons, Nat.mul_add]
    have hx : x % f + f * (x / f) = x := Nat.mod_add_div x f
    omega

theorem ceilDiv_add_mul (f q x : Nat) (hf : 1 ≤ f) :
    ceilDiv (f * q + x) f = q + ceilDiv x f := by
  rw [ceilDiv, ceilDiv]
  have h1 : f * q + x + f - 1 = (x + f - 1) + f * q := by omega
  rw [h1, Nat.add_mul_div_left _ _ (by omega)]
  omega

/-- One iteration maps the total load `T` to `ceil(T / f)`. -/
theorem totalLoad_step (lvl f : Nat) (st : List Nat × List NodeId)
    (hf : 1 ≤ f) :
    totalLoad (stepState lvl f st) = ceilDiv (totalLoad st) f := by
  rw [totalLoad, stepState, totalLoad]
  simp only [List.length_map, List.length_range]
  have hsum := sum_mod_add_mul_sum_div f st.1
  set R := (st.1.map (· % f)).sum with hR
  set Q := (st.1.map (· / f)).sum with hQ
  have hS : st.1.sum + st.2.length = f * Q + (R + st.2.length) := by omega
  rw [hS, ceilDiv_add_mul _ _ _ hf]
  rw [numNodesAtLevel, levelTotal, ← hR]
  by_cases h0 : 0 < R + st.2.length
  · rw [if_pos h0]
  · rw [if_neg h0]
    have hR0 : R + st.2.length = 0 := by omega
    rw [hR0]
    rw [ceilDiv]
    rw [Nat.div_eq_of_lt (by omega)]

/-- Conservation invariant of the level loop: after `k` iterations the
total load equals the product of the factors not yet processed, provided
the ratio sum equals the full factor product. -/
theorem totalLoad_invariant (factors ratios : List Nat)
    (hf1 : ∀ f ∈ factors, 1 ≤ f) (hsum : ratios.sum = factors.prod) :
    ∀ k, k ≤ factors.length →
      totalLoad (dfmmStateAfter factors ratios k) =
        (factors.take (factors.length - k)).prod := by
  intro k
  induction k with
  | zero =>
    intro _
    simp only [dfmmStateAfter, totalLoad, Nat.sub_zero, List.take_length]
    simpa using hsum
  | succ k ih =>
    intro hk
    have hlvl : factors.length - 1 - k = factors.length - (k + 1) := by omega
    have hlt : factors.length - (k + 1) < factors.length := by omega
    rw [dfmmStateAfter]
    simp only [hlvl]
    have hfge : 1 ≤ factors.getD (factors.length - (k + 1)) 0 := by
      rw [List.getD_eq_getElem factors 0 hlt]
      exact hf1 _ (List.getElem_mem hlt)
    rw [totalLoad_step _ _ _ hfge, ih (by omega)]
    have htake : factors.length - k = (factors.length - (k + 1)) + 1 := by omega
    rw [htake, List.prod_take_succ factors _ hlt]
    rw [List.getD_eq_getElem factors 0 hlt]
    rw [ceilDiv]
    have h1 : 1 ≤ factors[factors.length - (k + 1)] := by
      exact hf1 _ (List.getElem_mem hlt)
    set P := (factors.take (factors.length - (k + 1))).prod
    set F := factors[factors.length - (k + 1)]
    have : P * F + F - 1 = (F - 1) + F * P := by
      have := Nat.mul_comm P F
      omega
    rw [this, Nat.add_mul_div_left _ _ (by omega)]
    rw [Nat.div_eq_of_lt (by omega)]
    omega

/-- Product of the factors from level `n` on, i.e. `prod(factors[n:])`. -/
def suffixProd (factors : List Nat) (n : Nat) : Nat := (factors.drop n).prod

theorem suffixProd_eq (factors : List Nat) (n : Nat) (h : n < factors.length) :
    suffixProd factors n = factors[n] * suffixProd factors (n + 1) := by
  rw [suffixProd, suffixProd, ← List.getElem_cons_drop factors n h, List.prod_cons]

/-- The values after `k` iterations are the original ratios divided by the
product of the factors already processed. -/
theorem valuesAfter_eq (factors ratios : List Nat) :
    ∀ k, k ≤ factors.length →
      (dfmmStateAfter factors ratios k).1 =
        ratios.map (· / suffixProd factors (factors.length - k)) := by
  intro k
  induction k with
  | zero =>
    intro _
    simp only [dfmmStateAfter, Nat.sub_zero, suffixProd, List.drop_length,
      List.prod_nil]
    simp
  | succ k ih =>
    intro hk
    have hlvl : factors.length - 1 - k = factors.length - (k + 1) := by omega
    have hlt : factors.length - (k + 1) < factors.length := by omega
    rw [dfmmStateAfter]
    simp only [hlvl, stepState]
    rw [ih (by omega), List.map_map]
    apply List.map_congr_left
    intro x _
    simp only [Function.comp_apply]
    rw [Nat.div_div_eq_div_mul]
    congr 1
    have hstep : factors.length - k = (factors.length - (k + 1)) + 1 := by omega
    rw [List.getD_eq_getElem factors 0 hlt]
    rw [hstep, suffixProd_eq factors _ hlt]
    exact Nat.mul_comm _ _

/-- Once some iteration created at least one node, every later iteration
creates at least one node; otherwise all values seen so far were exactly
divisible, i.e. each ratio is divisible by the suffix product of the
factors processed so far. -/
theorem kids_or_dvd (factors ratios : List Nat)
    (hf1 : ∀ f ∈ factors, 1 ≤ f) :
    ∀ k, k ≤ factors.length →
      1 ≤ (dfmmStateAfter factors ratios k).2.length ∨
        ∀ r ∈ ratios, suffixProd factors (factors.length - k) ∣ r := by
  intro k
  induction k with
  | zero =>
    intro _
    right
    intro r _
    simp [suffixProd]
  | succ k ih =>
    intro hk
    have hlvl : factors.length - 1 - k = factors.length - (k + 1) := by omega
    have hlt : factors.length - (k + 1) < factors.length := by omega
    have hfge : 1 ≤ factors.getD (factors.length - (k + 1)) 0 := by
      rw [List.getD_eq_getElem factors 0 hlt]
      exact hf1 _ (List.getElem_mem hlt)
    rw [dfmmStateAfter]
    simp only [hlvl]
    set st := dfmmStateAfter factors ratios k with hst
    set f := factors.getD (factors.length - (k + 1)) 0 with hfdef
    by_cases hnum : 1 ≤ numNodesAtLevel (levelTotal f st) f
    · left
      rw [stepState]
      simpa using hnum
    · -- no node created at this level: the total at the level is 0
      right
      push_neg at hnum
      interval_cases hn : numNodesAtLevel (levelTotal f st) f
      have htot : levelTotal f st = 0 := by
        by_contra htot
        rw [numNodesAtLevel, if_pos (by omega), ceilDiv] at hn
        have : 1 ≤ (levelTotal f st + f - 1) / f :=
          (Nat.one_le_div_iff (by omega)).mpr (by omega)
        omega
      rw [levelTotal] at htot
      have hrem0 : ∀ v ∈ st.1, v % f = 0 := by
        intro v hv
        have : (st.1.map (· % f)).sum = 0 := by omega
        have := List.sum_eq_zero_iff.mp this (v % f) (List.mem_map_of_mem _ hv)
        exact this
      have hkids0 : st.2.length = 0 := by omega
      rcases ih (by omega) with hleft | hright
      · omega
      · intro r hr
        have hval : r / suffixProd factors (factors.length - k) ∈ st.1 := by
          rw [hst, valuesAfter_eq factors ratios k (by omega)]
          exact List.mem_map_of_mem _ hr
        have hmod := hrem0 _ hval
        have hdvd := hright r hr
        -- combine: suffixProd (L - k) ∣ r and f ∣ r / suffixProd (L - k)
        obtain ⟨q, hq⟩ := hdvd
        have hq' : r / suffixProd factors (factors.length - k) = q := by
          rw [hq]
          have hP : 1 ≤ suffixProd factors (factors.length - k) := by
            rw [suffixProd]
            apply List.one_le_prod_of_one_le
            intro x hx
            exact hf1 x (List.mem_of_mem_drop hx)
          exact Nat.mul_div_cancel_left q (by omega)
        rw [hq'] at hmod
        have hfq : f ∣ q := Nat.dvd_of_mod_eq_zero hmod
        have hstep : factors.length - k = (factors.length - (k + 1)) + 1 := by
          omega
        rw [suffixProd_eq factors _ hlt, ← hstep]
        rw [List.getD_eq_getElem factors 0 hlt] at hfdef
        obtain ⟨q2, hq2⟩ := hfq
        exact ⟨q2, by rw [hq, hq2, hfdef]; ring⟩

/-- Lookup of a node `(ℓ, k)` that the level loop created: its children are
exactly the round-robin sublist of the child ids that were pending when
level `ℓ` was processed. -/
theorem childrenOf_build (ratios factors : List Nat) (ℓ : Nat)
    (hℓ : ℓ < factors.length) (k : Nat)
    (hk : k < numNodesAtLevel
      (levelTotal (factors.getD ℓ 0)
        (dfmmStateAfter factors ratios (factors.length - ℓ - 1)))
      (factors.getD ℓ 0)) :
    childrenOf (build_dfmm_tree ⟨ratios, factors⟩) (ℓ, k) =
      (((dfmmStateAfter factors ratios (factors.length - ℓ - 1)).2.enum.filter
        (fun p => p.1 % numNodesAtLevel
          (levelTotal (factors.getD ℓ 0)
            (dfmmStateAfter factors ratios (factors.length - ℓ - 1)))
          (factors.getD ℓ 0) == k)).map Prod.snd) := by
  obtain ⟨pre, hpre, heq⟩ :=
    buildLevelsAux_decomp factors ratios (factors.length - ℓ - 1) (by omega)
  have hrem : factors.length - (factors.length - ℓ - 1) = ℓ + 1 := by omega
  rw [build_dfmm_tree]
  simp only [hrem] at heq
  rw [heq, buildLevelsAux, childrenOf]
  rw [List.find?_append, List.find?_append]
  have hprenone : pre.find? (fun e => e.1 == (ℓ, k)) = none := by
    rw [List.find?_eq_none]
    intro e he
    have := hpre e he
    simp only [beq_iff_eq]
    intro hcon
    rw [hcon] at this
    simp at this
    omega
  rw [hprenone]
  rw [childrenOf_levelEntries _ _ _ k hk]
  rfl

/-- **C2 counterexample**: a single-reagent target whose ratio is exactly
divisible all the way down (`ratios = [2]`, `factors = [2]`, product =
sum) produces a tree with no level-0 node at all, although the claim's
hypotheses hold. -/
theorem C2_counterexample :
    ([2] : List Nat) ≠ [] ∧ (∀ r ∈ ([2] : List Nat), 0 < r) ∧
    ([2] : List Nat) ≠ [] ∧ ([2] : List Nat).prod = ([2] : List Nat).sum ∧
    countNodesAt (build_dfmm_tree ⟨[2], [2]⟩) 0 = 0 := by
  refine ⟨by simp, by simp, by simp, by simp, ?_⟩
  rfl

/-- **C2 (amended)**: for every target with at least two reagents, all
ratios positive, and a non-empty factor list whose product equals the
ratio sum, the built tree has exactly one node at level 0. -/
theorem C2_root_unique (ratios factors : List Nat)
    (hlen : 2 ≤ ratios.length) (hpos : ∀ r ∈ ratios, 0 < r)
    (hfne : factors ≠ []) (hsum : factors.prod = ratios.sum) :
    countNodesAt (build_dfmm_tree ⟨ratios, factors⟩) 0 = 1 := by
  obtain ⟨a, b, t, hrat⟩ : ∃ a b t, ratios = a :: b :: t := by
    match ratios, hlen with
    | a :: b :: t, _ => exact ⟨a, b, t, rfl⟩
  have ha : 0 < a := hpos a (by rw [hrat]; simp)
  have hb : 0 < b := hpos b (by rw [hrat]; simp)
  have hsum2 : 2 ≤ ratios.sum := by
    rw [hrat]; simp only [List.sum_cons]; omega
  have hf1 : ∀ f ∈ factors, 1 ≤ f := by
    intro f hf
    by_contra h0
    have hf0 : f = 0 := by omega
    have : factors.prod = 0 := List.prod_eq_zero_iff.mpr (hf0 ▸ hf)
    omega
  have hL : 1 ≤ factors.length := by
    cases factors with
    | nil => exact absurd rfl hfne
    | cons x xs => simp
  -- the level-0 node count is the length of the final child-id list
  have hcount := countNodesAt_build ratios factors 0 (by omega)
  simp only [Nat.sub_zero] at hcount
  have hstateL : (dfmmStateAfter factors ratios factors.length).2.length =
      numNodesAtLevel
        (levelTotal (factors.getD 0 0)
          (dfmmStateAfter factors ratios (factors.length - 1)))
        (factors.getD 0 0) := by
    have hLeq : factors.length = (factors.length - 1) + 1 := by omega
    rw [hLeq, dfmmStateAfter]
    have h0 : factors.length - 1 - (factors.length - 1) = 0 := by omega
    simp only [h0, stepState]
    simp [← hLeq]
  -- total load after all iterations is 1
  have hload := totalLoad_invariant factors ratios hf1 hsum.symm
    factors.length (le_refl _)
  simp only [Nat.sub_self, List.take_zero, List.prod_nil] at hload
  -- the final child-id list is non-empty
  have hkids := kids_or_dvd factors ratios hf1 factors.length (le_refl _)
  rcases hkids with hge1 | hdvd
  · rw [totalLoad] at hload
    rw [hcount, ← hstateL]
    omega
  · exfalso
    simp only [Nat.sub_self] at hdvd
    have hda := hdvd a (by rw [hrat]; simp)
    have : suffixProd factors 0 = ratios.sum := by
      rw [suffixProd, List.drop_zero, hsum]
    rw [this] at hda
    have hle : ratios.sum ≤ a := Nat.le_of_dvd ha hda
    rw [hrat] at hle
    simp only [List.sum_cons] at hle
    omega

/-- **C4**: at every level `ℓ` the tree builder creates
`ceil((sum of remainders + number of pending children) / factor)` nodes
(`0` when that total is `0`), and the pending children are attached
round-robin: the `i`-th child (0-based, original order) becomes a child of
the parent with node index `i mod num_nodes`, parent `k` receiving exactly
the children at positions congruent to `k` in order. -/
theorem C4_level_counts_and_round_robin (ratios factors : List Nat) (ℓ : Nat)
    (hℓ : ℓ < factors.length) (hf : 1 ≤ factors.getD ℓ 0) :
    countNodesAt (build_dfmm_tree ⟨ratios, factors⟩) ℓ =
      (if 0 < (((dfmmStateAfter factors ratios
            (factors.length - ℓ - 1)).1.map (· % factors.getD ℓ 0)).sum +
          (dfmmStateAfter factors ratios (factors.length - ℓ - 1)).2.length)
        then ceilDiv
          ((((dfmmStateAfter factors ratios
            (factors.length - ℓ - 1)).1.map (· % factors.getD ℓ 0)).sum +
            (dfmmStateAfter factors ratios (factors.length - ℓ - 1)).2.length))
          (factors.getD ℓ 0)
        else 0) ∧
    (∀ i, (hi : i < (dfmmStateAfter factors ratios
          (factors.length - ℓ - 1)).2.length) →
      (dfmmStateAfter factors ratios (factors.length - ℓ - 1)).2.get ⟨i, hi⟩ ∈
        childrenOf (build_dfmm_tree ⟨ratios, factors⟩)
          (ℓ, i % countNodesAt (build_dfmm_tree ⟨ratios, factors⟩) ℓ)) := by
  have hcount := countNodesAt_build ratios factors ℓ hℓ
  constructor
  · rw [hcount, numNodesAtLevel, levelTotal]
  · intro i hi
    have htot : 1 ≤ levelTotal (factors.getD ℓ 0)
        (dfmmStateAfter factors ratios (factors.length - ℓ - 1)) := by
      rw [levelTotal]
      omega
    have hnum : 1 ≤ numNodesAtLevel
        (levelTotal (factors.getD ℓ 0)
          (dfmmStateAfter factors ratios (factors.length - ℓ - 1)))
        (factors.getD ℓ 0) := by
      rw [numNodesAtLevel, if_pos (by omega), ceilDiv]
      exact (Nat.one_le_div_iff (by omega)).mpr (by omega)
    rw [hcount]
    have hmodlt : i % numNodesAtLevel
        (levelTotal (factors.getD ℓ 0)
          (dfmmStateAfter factors ratios (factors.length - ℓ - 1)))
        (factors.getD ℓ 0) < numNodesAtLevel
        (levelTotal (factors.getD ℓ 0)
          (dfmmStateAfter factors ratios (factors.length - ℓ - 1)))
        (factors.getD ℓ 0) := Nat.mod_lt _ (by omega)
    rw [childrenOf_build ratios factors ℓ hℓ _ hmodlt]
    have hienum : i < (dfmmStateAfter factors ratios
        (factors.length - ℓ - 1)).2.enum.length := by simpa using hi
    have hgi : (dfmmStateAfter factors ratios
        (factors.length - ℓ - 1)).2.enum[i] =
        (i, (dfmmStateAfter factors ratios (factors.length - ℓ - 1)).2[i]) :=
      List.getElem_enum _ _ hienum
    have hmem1 : ((i, (dfmmStateAfter factors ratios
        (factors.length - ℓ - 1)).2[i]) : Nat × NodeId) ∈
        (dfmmStateAfter factors ratios (factors.length - ℓ - 1)).2.enum := by
      rw [← hgi]
      exact List.getElem_mem _
    have hmem2 : ((i, (dfmmStateAfter factors ratios
        (factors.length - ℓ - 1)).2[i]) : Nat × NodeId) ∈
        (dfmmStateAfter factors ratios (factors.length - ℓ - 1)).2.enum.filter
          (fun p => p.1 % numNodesAtLevel
            (levelTotal (factors.getD ℓ 0)
              (dfmmStateAfter factors ratios (factors.length - ℓ - 1)))
            (factors.getD ℓ 0) == i % numNodesAtLevel
            (levelTotal (factors.getD ℓ 0)
              (dfmmStateAfter factors ratios (factors.length - ℓ - 1)))
            (factors.getD ℓ 0)) :=
      List.mem_filter.mpr ⟨hmem1, beq_self_eq_true _⟩
    exact List.mem_map_of_mem Prod.snd hmem2

/-- Witness for C4 at the spec's concrete scenario
`ratios = [2, 11, 5]`, `factors = [3, 3, 2]`, level 1. -/
theorem C4_witness :
    (1 < ([3, 3, 2] : List Nat).length) ∧ 1 ≤ ([3, 3, 2] : List Nat).getD 1 0 ∧
    countNodesAt (build_dfmm_tree ⟨[2, 11, 5], [3, 3, 2]⟩) 1 =
      (if 0 < (((dfmmStateAfter [3, 3, 2] [2, 11, 5] 1).1.map
            (· % ([3, 3, 2] : List Nat).getD 1 0)).sum +
          (dfmmStateAfter [3, 3, 2] [2, 11, 5] 1).2.length)
        then ceilDiv
          ((((dfmmStateAfter [3, 3, 2] [2, 11, 5] 1).1.map
            (· % ([3, 3, 2] : List Nat).getD 1 0)).sum +
            (dfmmStateAfter [3, 3, 2] [2, 11, 5] 1).2.length))
          (([3, 3, 2] : List Nat).getD 1 0)
        else 0) := by
  refine ⟨by norm_num, by norm_num, ?_⟩
  exact (C4_level_counts_and_round_robin [2, 11, 5] [3, 3, 2] 1
    (by norm_num) (by norm_num)).1

/-- Witness for the amended C2 at the spec's concrete scenario. -/
theorem C2_witness :
    2 ≤ ([2, 11, 5] : List Nat).length ∧ (∀ r ∈ ([2, 11, 5] : List Nat), 0 < r) ∧
    ([3, 3, 2] : List Nat) ≠ [] ∧ ([3, 3, 2] : List Nat).prod = ([2, 11, 5] : List Nat).sum ∧
    countNodesAt (build_dfmm_tree ⟨[2, 11, 5], [3, 3, 2]⟩) 0 = 1 :=
  ⟨by norm_num, by decide, by decide, by decide,
    C2_root_unique [2, 11, 5] [3, 3, 2] (by norm_num) (by decide) (by decide)
      (by decide)⟩

/-! ## §3  PValueCalculator (`core/dfmm.py`,
`calculate_p_values_from_structure` / `get_p_for_node`)

The python recursion descends along `children` edges; in a forest built by
`build_dfmm_forest` every child of a node at level `ℓ` sits at level
`ℓ + 1`, so the recursion depth is bounded by the number of levels.  The
embedding makes that bound a fuel argument. -/

def getP (factors : List Nat) (tree : TreeStruct) : Nat → NodeId → Nat
  | 0, _ => 0
  | fuel + 1, nd =>
    if (childrenOf tree nd).isEmpty then (factors.drop nd.1).prod
    else factors.getD nd.1 0 *
      ((childrenOf tree nd).map (getP factors tree fuel)).foldl max 0

/-- The per-tree `p_value_map`: every node of the tree paired with its
P-value. -/
def calculate_p_values (tree : TreeStruct) (factors : List Nat) :
    List (NodeId × Nat) :=
  tree.map (fun e => (e.1, getP factors tree (factors.length + 1) e.1))

/-- Embedding of `calculate_p_values_from_structure`. -/
def calculate_p_values_from_structure (forest : List TreeStruct)
    (targets : List Target) : List (List (NodeId × Nat)) :=
  List.zipWith (fun tree tgt => calculate_p_values tree tgt.factors)
    forest targets

/-- In a built tree, every child edge descends exactly one level. -/
theorem buildLevelsAux_child_level (factors : List Nat) :
    ∀ n st, (∀ c ∈ st.2, c.1 = n) →
      ∀ e ∈ buildLevelsAux factors n st, ∀ c ∈ e.2, c.1 = e.1.1 + 1 := by
  intro n
  induction n with
  | zero => intro st _ e he; simp [buildLevelsAux] at he
  | succ n ih =>
    intro st hst e he c hc
    rw [buildLevelsAux] at he
    rcases List.mem_append.mp he with hh | ht
    · rw [levelEntries] at hh
      simp only [List.mem_map, List.mem_range] at hh
      obtain ⟨k, _, hk⟩ := hh
      rw [← hk] at hc ⊢
      simp only [List.mem_map, List.mem_filter] at hc
      obtain ⟨p, ⟨hpenum, _⟩, hpc⟩ := hc
      obtain ⟨hilt, hieq⟩ := List.mem_enum hpenum
      have hcmem : c ∈ st.2 := by
        rw [← hpc, hieq]
        exact List.getElem_mem _
      have := hst c hcmem
      simpa using this
    · refine ih (stepState n (factors.getD n 0) st) ?_ e ht c hc
      intro c' hc'
      rw [stepState] at hc'
      simp only [List.mem_map, List.mem_range] at hc'
      obtain ⟨k, _, hk⟩ := hc'
      rw [← hk]

theorem build_child_level (ratios factors : List Nat) :
    ∀ e ∈ build_dfmm_tree ⟨ratios, factors⟩, ∀ c ∈ e.2, c.1 = e.1.1 + 1 := by
  apply buildLevelsAux_child_level factors factors.length (ratios, [])
  intro c hc
  simp at hc

theorem foldl_max_allEq (v : Nat) :
    ∀ l : List Nat, l ≠ [] → (∀ x ∈ l, x = v) → ∀ a, l.foldl max a = max a v := by
  intro l
  induction l with
  | nil => intro h; exact absurd rfl h
  | cons x xs ih =>
    intro _ hall a
    have hx : x = v := hall x (List.mem_cons_self _ _)
    rw [List.foldl_cons]
    by_cases hxs : xs = []
    · rw [hxs]
      simp only [List.foldl_nil, hx]
    · rw [ih hxs (fun z hz => hall z (List.mem_cons_of_mem _ hz))]
      rw [hx, Nat.max_assoc, Nat.max_self]

/-- In any tree whose child edges descend exactly one level and whose keys
all sit above level `L`, the fuelled P-value recursion is fuel-insensitive
and computes the suffix product of the factors. -/
theorem getP_eq_suffixProd (factors : List Nat) (tree : TreeStruct)
    (hchild : ∀ e ∈ tree, ∀ c ∈ e.2, c.1 = e.1.1 + 1)
    (hkeys : ∀ e ∈ tree, e.1.1 < factors.length) :
    ∀ fuel nd, nd.1 ≤ factors.length →
      factors.length + 1 - nd.1 ≤ fuel →
      getP factors tree fuel nd = suffixProd factors nd.1 := by
  intro fuel
  induction fuel with
  | zero => intro nd h1 h2; omega
  | succ fuel ih =>
    intro nd h1 h2
    rw [getP]
    by_cases hempty : (childrenOf tree nd).isEmpty
    · rw [if_pos hempty, suffixProd]
    · rw [if_neg hempty]
      -- a node with children is a key of the tree
      have hkey : ∃ e ∈ tree, e.1 = nd ∧ e.2 = childrenOf tree nd := by
        rw [childrenOf]
        cases hfind : tree.find? (fun e => e.1 == nd) with
        | none => rw [childrenOf, hfind] at hempty; simp at hempty
        | some e =>
          refine ⟨e, List.mem_of_find?_eq_some hfind, ?_, by simp⟩
          have := List.find?_some hfind
          simpa using this
      obtain ⟨e, hetree, hend, hech⟩ := hkey
      have hndlt : nd.1 < factors.length := by
        have := hkeys e hetree
        rw [hend] at this
        exact this
      have hchildeq : ∀ c ∈ childrenOf tree nd,
          getP factors tree fuel c = suffixProd factors (nd.1 + 1) := by
        intro c hc
        have hclevel : c.1 = nd.1 + 1 := by
          have := hchild e hetree c (by rw [hech]; exact hc)
          rw [hend] at this
          exact this
        have := ih c (by omega) (by omega)
        rw [hclevel] at this
        exact this
      have hfold : ((childrenOf tree nd).map (getP factors tree fuel)).foldl
          max 0 = suffixProd factors (nd.1 + 1) := by
        rw [foldl_max_allEq (suffixProd factors (nd.1 + 1))
          ((childrenOf tree nd).map (getP factors tree fuel))
          (by
            intro hnil
            rw [List.map_eq_nil] at hnil
            rw [hnil] at hempty
            simp at hempty)
          (by
            intro x hx
            simp only [List.mem_map] at hx
            obtain ⟨c, hc, hcx⟩ := hx
            rw [← hcx]
            exact hchildeq c hc)
          0]
        simp
      rw [hfold]
      rw [List.getD_eq_getElem factors 0 hndlt]
      exact (suffixProd_eq factors nd.1 hndlt).symm

theorem buildTree_keys_lt (ratios factors : List Nat) :
    ∀ e ∈ build_dfmm_tree ⟨ratios, factors⟩, e.1.1 < factors.length := by
  intro e he
  exact buildLevelsAux_level_lt factors factors.length (ratios, []) e he

/-- **C5**: in a forest built by `build_dfmm_forest`, every node in the
P-value maps computed by `calculate_p_values_from_structure` has a P-value
that is a multiple of its own level's factor and of the P-value of every
one of its children; childless nodes carry the product of the factors from
their level on, and nodes with children carry their level's factor times
the maximum child P-value. -/
theorem C5_p_value_multiples (targets : List Target) (m : Nat)
    (hm : m < targets.length) (entry : NodeId × Nat)
    (hmem : entry ∈ (calculate_p_values_from_structure
      (build_dfmm_forest targets) targets).getD m []) :
    (targets.getD m ⟨[], []⟩).factors.getD entry.1.1 0 ∣ entry.2 ∧
    (∀ c ∈ childrenOf (build_dfmm_tree (targets.getD m ⟨[], []⟩)) entry.1,
      getP (targets.getD m ⟨[], []⟩).factors
        (build_dfmm_tree (targets.getD m ⟨[], []⟩))
        ((targets.getD m ⟨[], []⟩).factors.length + 1) c ∣ entry.2) ∧
    (childrenOf (build_dfmm_tree (targets.getD m ⟨[], []⟩)) entry.1 = [] →
      entry.2 = ((targets.getD m ⟨[], []⟩).factors.drop entry.1.1).prod) ∧
    (childrenOf (build_dfmm_tree (targets.getD m ⟨[], []⟩)) entry.1 ≠ [] →
      entry.2 = (targets.getD m ⟨[], []⟩).factors.getD entry.1.1 0 *
        ((childrenOf (build_dfmm_tree (targets.getD m ⟨[], []⟩)) entry.1).map
          (getP (targets.getD m ⟨[], []⟩).factors
            (build_dfmm_tree (targets.getD m ⟨[], []⟩))
            (targets.getD m ⟨[], []⟩).factors.length)).foldl max 0) := by
  set tgt := targets.getD m ⟨[], []⟩ with htgt
  have hforest : (calculate_p_values_from_structure
      (build_dfmm_forest targets) targets).getD m [] =
      calculate_p_values (build_dfmm_tree tgt) tgt.factors := by
    rw [calculate_p_values_from_structure, build_dfmm_forest]
    have hlen : (List.zipWith (fun tree t => calculate_p_values tree t.factors)
        (targets.map build_dfmm_tree) targets).length = targets.length := by
      simp
    rw [List.getD_eq_getElem _ [] (by omega), List.getElem_zipWith]
    rw [List.getElem_map]
    rw [htgt, List.getD_eq_getElem targets ⟨[], []⟩ hm]
  rw [hforest, calculate_p_values] at hmem
  simp only [List.mem_map] at hmem
  obtain ⟨e, hetree, heq⟩ := hmem
  have hchild := build_child_level tgt.ratios tgt.factors
  have hkeys := buildTree_keys_lt tgt.ratios tgt.factors
  have htgt_tree : build_dfmm_tree tgt = build_dfmm_tree ⟨tgt.ratios, tgt.factors⟩ := rfl
  rw [htgt_tree] at *
  have hndlt : e.1.1 < tgt.factors.length := hkeys e hetree
  have hP := getP_eq_suffixProd tgt.factors (build_dfmm_tree ⟨tgt.ratios, tgt.factors⟩)
    hchild hkeys (tgt.factors.length + 1) e.1 (by omega) (by omega)
  have hentry1 : entry.1 = e.1 := by rw [← heq]
  have hentry2 : entry.2 = suffixProd tgt.factors e.1.1 := by
    rw [← heq]
    exact hP
  refine ⟨?_, ?_, ?_, ?_⟩
  · rw [hentry2, hentry1, suffixProd_eq tgt.factors e.1.1 hndlt]
    rw [List.getD_eq_getElem tgt.factors 0 hndlt]
    exact dvd_mul_right _ _
  · intro c hc
    rw [hentry1] at hc
    have hclevel : c.1 = e.1.1 + 1 := by
      have hkey : ∃ e' ∈ build_dfmm_tree ⟨tgt.ratios, tgt.factors⟩,
          e'.1 = e.1 ∧ e'.2 = childrenOf (build_dfmm_tree ⟨tgt.ratios, tgt.factors⟩) e.1 := by
        rw [childrenOf]
        cases hfind : (build_dfmm_tree ⟨tgt.ratios, tgt.factors⟩).find?
            (fun e' => e'.1 == e.1) with
        | none =>
          rw [List.find?_eq_none] at hfind
          exact absurd (by simp : (fun e' => e'.1 == e.1) e = true) (hfind e hetree)
        | some e' =>
          refine ⟨e', List.mem_of_find?_eq_some hfind, ?_, by simp⟩
          have := List.find?_some hfind
          simpa using this
      obtain ⟨e', he'tree, he'nd, he'ch⟩ := hkey
      have := hchild e' he'tree c (by rw [he'ch]; exact hc)
      rw [he'nd] at this
      exact this
    have hcP := getP_eq_suffixProd tgt.factors
      (build_dfmm_tree ⟨tgt.ratios, tgt.factors⟩) hchild hkeys
      (tgt.factors.length + 1) c (by omega) (by omega)
    rw [hcP, hclevel, hentry2, suffixProd_eq tgt.factors e.1.1 hndlt]
    exact dvd_mul_left _ _
  · intro hempty
    rw [hentry2, hentry1] at *
    rw [suffixProd]
  · intro hnonempty
    rw [hentry1] at hnonempty ⊢
    have hchildeq : ∀ c ∈ childrenOf (build_dfmm_tree ⟨tgt.ratios, tgt.factors⟩) e.1,
        getP tgt.factors (build_dfmm_tree ⟨tgt.ratios, tgt.factors⟩)
          tgt.factors.length c = suffixProd tgt.factors (e.1.1 + 1) := by
      intro c hc
      have hclevel : c.1 = e.1.1 + 1 := by
        have hkey : ∃ e' ∈ build_dfmm_tree ⟨tgt.ratios, tgt.factors⟩,
            e'.1 = e.1 ∧ e'.2 = childrenOf (build_dfmm_tree ⟨tgt.ratios, tgt.factors⟩) e.1 := by
          rw [childrenOf]
          cases hfind : (build_dfmm_tree ⟨tgt.ratios, tgt.factors⟩).find?
              (fun e' => e'.1 == e.1) with
          | none =>
            rw [List.find?_eq_none] at hfind
            exact absurd (by simp : (fun e' => e'.1 == e.1) e = true) (hfind e hetree)
          | some e' =>
            refine ⟨e', List.mem_of_find?_eq_some hfind, ?_, by simp⟩
            have := List.find?_some hfind
            simpa using this
        obtain ⟨e', he'tree, he'nd, he'ch⟩ := hkey
        have := hchild e' he'tree c (by rw [he'ch]; exact hc)
        rw [he'nd] at this
        exact this
      have := getP_eq_suffixProd tgt.factors
        (build_dfmm_tree ⟨tgt.ratios, tgt.factors⟩) hchild hkeys
        tgt.factors.length c (by omega) (by omega)
      rw [this, hclevel]
    have hfold : ((childrenOf (build_dfmm_tree ⟨tgt.ratios, tgt.factors⟩) e.1).map
        (getP tgt.factors (build_dfmm_tree ⟨tgt.ratios, tgt.factors⟩)
          tgt.factors.length)).foldl max 0 = suffixProd tgt.factors (e.1.1 + 1) := by
      rw [foldl_max_allEq (suffixProd tgt.factors (e.1.1 + 1)) _
        (by
          intro hnil
          rw [List.map_eq_nil] at hnil
          exact hnonempty hnil)
        (by
          intro x hx
          simp only [List.mem_map] at hx
          obtain ⟨c, hc, hcx⟩ := hx
          rw [← hcx]
          exact hchildeq c hc)
        0]
      simp
    rw [hfold, hentry2, suffixProd_eq tgt.factors e.1.1 hndlt]
    rw [List.getD_eq_getElem tgt.factors 0 hndlt]

/-- Witness for C5 at a node with a child:
`targets = [([2,11,5], [3,3,2])]`, node `(1,0)` with P-value 6. -/
theorem C5_witness :
    (0 < ([⟨[2, 11, 5], [3, 3, 2]⟩] : List Target).length) ∧
    (((1, 0), 6) : NodeId × Nat) ∈ (calculate_p_values_from_structure
      (build_dfmm_forest [⟨[2, 11, 5], [3, 3, 2]⟩])
      [⟨[2, 11, 5], [3, 3, 2]⟩]).getD 0 [] ∧
    (([⟨[2, 11, 5], [3, 3, 2]⟩] : List Target).getD 0 ⟨[], []⟩).factors.getD 1 0 ∣ 6 := by
  refine ⟨by norm_num, by decide, ?_⟩
  exact (C5_p_value_multiples [⟨[2, 11, 5], [3, 3, 2]⟩] 0 (by norm_num)
    ((1, 0), 6) (by decide)).1

/-! ## §4  MTWMProblem (`core/model/problem.py`)

Nodes are addressed by `(target_idx, level, node_idx)`; sources are either
DFMM nodes or peer (`R`) nodes (python tags the latter with the string
`"R"`; the embedding uses a sum type). -/

abbrev Node3 := Nat × Nat × Nat

inductive SrcId where
  | dfmm (t l k : Nat)
  | peer (i : Nat)
deriving DecidableEq, Repr

/-- A peer (`R`) node: either a fixed pair of same-P sources or a generic
(dynamic-mode) node holding a candidate list. -/
inductive PeerNode where
  | fixed (sourceA sourceB : Node3) (pValue : Nat)
  | generic (pValue : Nat) (candidateSources : List Node3)
deriving DecidableEq, Repr

def PeerNode.pValue : PeerNode → Nat
  | .fixed _ _ p => p
  | .generic p _ => p

def PeerNode.isGeneric : PeerNode → Bool
  | .fixed _ _ _ => false
  | .generic _ _ => true

/-- `l_src_eff`: `999` for a generic peer, otherwise the deeper of the two
fixed sources' levels. -/
def PeerNode.effLevel : PeerNode → Nat
  | .fixed a b _ => max a.2.1 b.2.1
  | .generic _ _ => 999

/-- Python tuple comparison `(m_a, l_a, k_a) > (m_b, l_b, k_b)`. -/
def tripleGt (a b : Node3) : Bool :=
  decide (b.1 < a.1 ∨ (b.1 = a.1 ∧ (b.2.1 < a.2.1 ∨
    (b.2.1 = a.2.1 ∧ b.2.2 < a.2.2))))

/-- `_create_peer_node_entry`: order the two sources canonically and build
the fixed peer record. -/
def create_peer_node_entry (nodeA nodeB : Node3) (pVal : Nat) : PeerNode :=
  if tripleGt nodeA nodeB then PeerNode.fixed nodeB nodeA pVal
  else PeerNode.fixed nodeA nodeB pVal

/-- `itertools.combinations(nodes_list, 2)` in python order. -/
def combinations2 : List Node3 → List (Node3 × Node3)
  | [] => []
  | x :: xs => (xs.map (fun y => (x, y))) ++ combinations2 xs

/-- The pair loop of `_generate_peers_from_list`: `rem` is the number of
peer nodes that may still be created before the `count >= limit` break;
with no forced P-value (global mode) a pair is skipped — without consuming
quota — unless both members have the same known P-value. -/
def genPeersFromPairs (pmaps : Nat → NodeId → Option Nat)
    (pValForce : Option Nat) : List (Node3 × Node3) → Nat → List PeerNode
  | [], _ => []
  | _ :: _, 0 => []
  | (a, b) :: rest, rem + 1 =>
    match pValForce with
    | some p => create_peer_node_entry a b p ::
        genPeersFromPairs pmaps pValForce rest rem
    | none =>
      match pmaps a.1 (a.2.1, a.2.2), pmaps b.1 (b.2.1, b.2.2) with
      | some pA, some pB =>
        if pA = pB then
          create_peer_node_entry a b pA :: genPeersFromPairs pmaps none rest rem
        else genPeersFromPairs pmaps none rest (rem + 1)
      | _, _ => genPeersFromPairs pmaps none rest (rem + 1)

/-- Embedding of `_generate_peers_from_list` (with a finite limit). -/
def generate_peers_from_list (pmaps : Nat → NodeId → Option Nat)
    (nodesList : List Node3) (pValForce : Option Nat) (limit : Nat) :
    List PeerNode :=
  genPeersFromPairs pmaps pValForce (combinations2 nodesList) limit

/-- The per-group body of `_create_fixed_peer_nodes` in `half_p_group`
mode: skip groups smaller than 2, cap at `floor(n / 2)` with the special
case of `2` when the group has exactly `3` members. -/
def fixedPeersForGroup (pmaps : Nat → NodeId → Option Nat) (pVal : Nat)
    (nodesList : List Node3) : List PeerNode :=
  if nodesList.length < 2 then []
  else
    let groupLimit := if nodesList.length = 3 then 2 else nodesList.length / 2
    generate_peers_from_list pmaps nodesList (some pVal) groupLimit

/-- `_create_fixed_peer_nodes`, `half_p_group` branch, over the P-value
groups. -/
def create_fixed_peer_nodes_half_p_group (pmaps : Nat → NodeId → Option Nat)
    (groups : List (Nat × List Node3)) : List PeerNode :=
  groups.flatMap (fun g => fixedPeersForGroup pmaps g.1 g.2)

theorem genPeersFromPairs_forced_length (pmaps : Nat → NodeId → Option Nat)
    (p : Nat) :
    ∀ pairs rem, (genPeersFromPairs pmaps (some p) pairs rem).length =
      min rem pairs.length := by
  intro pairs
  induction pairs with
  | nil => intro rem; simp [genPeersFromPairs]
  | cons pr rest ih =>
    intro rem
    match rem with
    | 0 => simp [genPeersFromPairs]
    | rem + 1 =>
      obtain ⟨a, b⟩ := pr
      rw [genPeersFromPairs]
      simp only [List.length_cons, ih rem]
      omega

/-- **C7**: in fixed peer mode with the `half_p_group` policy, a P-value
group with exactly 3 candidate nodes yields exactly 2 fixed peer nodes —
not `floor(3/2) = 1` and not all `3` pairs. -/
theorem C7_group_of_three_gives_two_peers (pmaps : Nat → NodeId → Option Nat)
    (pVal : Nat) (nodesList : List Node3) (h3 : nodesList.length = 3) :
    (fixedPeersForGroup pmaps pVal nodesList).length = 2 := by
  obtain ⟨a, b, c, hn⟩ : ∃ a b c, nodesList = [a, b, c] := by
    match nodesList, h3 with
    | [a, b, c], _ => exact ⟨a, b, c, rfl⟩
  subst hn
  rfl

/-- Witness for C7 at three concrete candidate nodes. -/
theorem C7_witness :
    ([((0, 1, 0) : Node3), (0, 1, 1), (1, 2, 0)]).length = 3 ∧
    (fixedPeersForGroup (fun _ _ => none) 6
      [((0, 1, 0) : Node3), (0, 1, 1), (1, 2, 0)]).length = 2 :=
  ⟨by decide, C7_group_of_three_gives_two_peers (fun _ _ => none) 6
    [(0, 1, 0), (0, 1, 1), (1, 2, 0)] (by decide)⟩

/-- The configuration knobs read by `_precompute_potential_sources_v2`. -/
structure SharingConfig where
  enableFinalProductSharing : Bool
  maxLevelDiff : Option Nat
  enableRoleBasedPruning : Bool
  interSharingMode : String

/-- The optional `MAX_LEVEL_DIFF` cap:
`l_src_eff > dst_level + MAX_LEVEL_DIFF → continue`. -/
def levelDiffOk : Option Nat → Nat → Nat → Bool
  | none, _, _ => true
  | some d, dl, leff => decide (leff ≤ dl + d)

/-- Default tree edge: the source is the destination's child in the same
target's tree. -/
def isDefaultEdge (treeStructures : List TreeStruct)
    (dt dl dk st sl sk : Nat) : Bool :=
  decide (st = dt) &&
    decide ((sl, sk) ∈ childrenOf (treeStructures.getD dt []) (dl, dk))

/-- Role-based pruning for a non-default DFMM-to-DFMM connection
(`role = (src_node_idx + src_target_idx) % 3`). -/
def roleAllowedDfmm (cfg : SharingConfig) (numTargets : Nat)
    (dt dl st sl sk : Nat) : Bool :=
  if st = dt then
    let roleId := (sk + st) % 3
    if roleId = 0 then decide (sl - dl = 1)
    else if roleId = 1 then decide (1 < sl - dl)
    else false
  else
    if cfg.interSharingMode = "ring" then decide (dt = (st + 1) % numTargets)
    else if cfg.interSharingMode = "linear" then decide (dt = st + 1)
    else decide ((sk + st) % 3 = 2)

/-- The acceptance test of `_precompute_potential_sources_v2` for one
(destination, candidate source) pair: the conjunction, in source order, of
the self-loop exclusion (DFMM sources), level-ordering validity, the
optional max-level-difference cap (generic peers exempt), the P-value
divisibility test, and — when enabled for DFMM sources — role pruning
(default parent-child edges always allowed; peer sources never pruned). -/
def acceptSource (cfg : SharingConfig) (targetsConfig : List Target)
    (treeStructures : List TreeStruct) (pmaps : Nat → NodeId → Nat)
    (peers : List PeerNode) (dst : Node3) (src : SrcId) : Bool :=
  let dt := dst.1
  let dl := dst.2.1
  let dk := dst.2.2
  let pDst := pmaps dt (dl, dk)
  let fDst := (targetsConfig.getD dt ⟨[], []⟩).factors.getD dl 0
  match src with
  | .peer i =>
    let pn := peers.getD i (PeerNode.generic 0 [])
    decide (dl < pn.effLevel) &&
    (pn.isGeneric || levelDiffOk cfg.maxLevelDiff dl pn.effLevel) &&
    decide ((pDst / fDst) % pn.pValue = 0)
  | .dfmm st sl sk =>
    !(decide ((dt, dl, dk) = (st, sl, sk))) &&
    (decide (dl < sl) || (decide (sl = 0) && cfg.enableFinalProductSharing)) &&
    levelDiffOk cfg.maxLevelDiff dl sl &&
    decide ((pDst / fDst) % pmaps st (sl, sk) = 0) &&
    (!cfg.enableRoleBasedPruning ||
      (isDefaultEdge treeStructures dt dl dk st sl sk ||
        roleAllowedDfmm cfg targetsConfig.length dt dl st sl sk))

/-- All destination nodes `(target_idx, level, node_idx)` of the forest. -/
def allDestNodes (forest : List TreeStruct) : List Node3 :=
  forest.enum.flatMap (fun p => p.2.map (fun e => (p.1, e.1.1, e.1.2)))

/-- The entries of `potential_sources_map` as (destination, source) pairs:
every destination against every DFMM node and every peer node, filtered by
`acceptSource`. -/
def potential_sources_entries (cfg : SharingConfig)
    (targetsConfig : List Target) (treeStructures : List TreeStruct)
    (pmaps : Nat → NodeId → Nat) (peers : List PeerNode) :
    List (Node3 × SrcId) :=
  let allDest := allDestNodes treeStructures
  let allSources := allDest.map (fun d => SrcId.dfmm d.1 d.2.1 d.2.2) ++
    (List.range peers.length).map SrcId.peer
  allDest.flatMap (fun dst =>
    (allSources.filter
      (acceptSource cfg targetsConfig treeStructures pmaps peers dst)).map
      (fun s => (dst, s)))

/-- The source's P-value as read by the precomputation. -/
def srcPValue (pmaps : Nat → NodeId → Nat) (peers : List PeerNode) :
    SrcId → Nat
  | .dfmm t l k => pmaps t (l, k)
  | .peer i => (peers.getD i (PeerNode.generic 0 [])).pValue

theorem mem_potential_sources_accept (cfg : SharingConfig)
    (targetsConfig : List Target) (treeStructures : List TreeStruct)
    (pmaps : Nat → NodeId → Nat) (peers : List PeerNode)
    (dst : Node3) (src : SrcId)
    (hmem : (dst, src) ∈ potential_sources_entries cfg targetsConfig
      treeStructures pmaps peers) :
    acceptSource cfg targetsConfig treeStructures pmaps peers dst src = true := by
  rw [potential_sources_entries] at hmem
  simp only [List.mem_flatMap, List.mem_map, List.mem_filter] at hmem
  obtain ⟨d, _, s, ⟨_, hacc⟩, heq⟩ := hmem
  obtain ⟨hd, hs⟩ := Prod.mk.injEq .. ▸ heq
  cases heq
  exact hacc

/-- **C1**: every entry of `potential_sources_map` satisfies the P-value
divisibility constraint `(P_dst // F_dst) % P_src == 0` — for DFMM sources
and peer sources alike — and no entry's source is the destination
itself. -/
theorem C1_edge_validity (cfg : SharingConfig) (targetsConfig : List Target)
    (treeStructures : List TreeStruct) (pmaps : Nat → NodeId → Nat)
    (peers : List PeerNode) (dst : Node3) (src : SrcId)
    (hmem : (dst, src) ∈ potential_sources_entries cfg targetsConfig
      treeStructures pmaps peers) :
    (pmaps dst.1 (dst.2.1, dst.2.2) /
        (targetsConfig.getD dst.1 ⟨[], []⟩).factors.getD dst.2.1 0) %
      srcPValue pmaps peers src = 0 ∧
    (∀ t l k, src = .dfmm t l k → (t, l, k) ≠ dst) := by
  have hacc := mem_potential_sources_accept cfg targetsConfig treeStructures
    pmaps peers dst src hmem
  cases src with
  | peer i =>
    rw [acceptSource] at hacc
    simp only [Bool.and_eq_true, decide_eq_true_eq] at hacc
    exact ⟨hacc.2, by intro t l k h; exact SrcId.noConfusion h⟩
  | dfmm st sl sk =>
    rw [acceptSource] at hacc
    simp only [Bool.and_eq_true, decide_eq_true_eq, Bool.not_eq_true',
      decide_eq_false_iff_not] at hacc
    obtain ⟨⟨⟨⟨hself, _⟩, _⟩, hdvd⟩, _⟩ := hacc
    refine ⟨hdvd, ?_⟩
    intro t l k h hcon
    injection h with h1 h2 h3
    subst h1; subst h2; subst h3
    exact hself hcon.symm

/-- Witness for C1: one destination, one admissible DFMM source. -/
theorem C1_witness :
    ((((0, 0, 0) : Node3), SrcId.dfmm 0 1 0) ∈ potential_sources_entries
      ⟨false, none, false, "all"⟩ [⟨[1, 1], [2, 2]⟩]
      [[((0, 0), [((1, 0) : NodeId)]), ((1, 0), [])]]
      (fun _ nd => if nd.1 = 0 then 4 else 2) []) ∧
    ((fun (_ : Nat) (nd : NodeId) => if nd.1 = 0 then 4 else 2) 0 (0, 0) /
        (([⟨[1, 1], [2, 2]⟩] : List Target).getD 0 ⟨[], []⟩).factors.getD 0 0) %
      srcPValue (fun _ nd => if nd.1 = 0 then 4 else 2) [] (SrcId.dfmm 0 1 0) = 0 := by
  constructor
  · decide
  · exact (C1_edge_validity ⟨false, none, false, "all"⟩ [⟨[1, 1], [2, 2]⟩]
      [[((0, 0), [((1, 0) : NodeId)]), ((1, 0), [])]]
      (fun _ nd => if nd.1 = 0 then 4 else 2) [] (0, 0, 0) (SrcId.dfmm 0 1 0)
      (by decide)).1

/-- **C6 counterexample**: with `MAX_LEVEL_DIFF = 0` configured, a generic
(dynamic-mode) peer node is exempt from the cap and is accepted although
its effective source level (999) exceeds `dst_level + MAX_LEVEL_DIFF`. -/
theorem C6_counterexample :
    ((((0, 0, 0) : Node3), SrcId.peer 0) ∈ potential_sources_entries
      ⟨false, some 0, false, "all"⟩ [⟨[1, 1], [2]⟩] [[((0, 0), [])]]
      (fun _ _ => 4) [PeerNode.generic 2 []]) ∧
    ¬ (([PeerNode.generic 2 []].getD 0
        (PeerNode.generic 0 [])).effLevel ≤ 0 + 0) := by
  decide

/-- **C6 (amended)**: when `MAX_LEVEL_DIFF` is configured, every entry of
`potential_sources_map` whose source is a DFMM node or a fixed
(non-generic) peer node has effective source level at most destination
level plus `MAX_LEVEL_DIFF`; generic (dynamic-mode) peer sources are
exempt from the cap. -/
theorem C6_max_level_diff (cfg : SharingConfig) (targetsConfig : List Target)
    (treeStructures : List TreeStruct) (pmaps : Nat → NodeId → Nat)
    (peers : List PeerNode) (d : Nat) (hd : cfg.maxLevelDiff = some d)
    (dst : Node3) (src : SrcId)
    (hmem : (dst, src) ∈ potential_sources_entries cfg targetsConfig
      treeStructures pmaps peers) :
    (∀ t l k, src = .dfmm t l k → l ≤ dst.2.1 + d) ∧
    (∀ i, src = .peer i →
      (peers.getD i (PeerNode.generic 0 [])).isGeneric = false →
      (peers.getD i (PeerNode.generic 0 [])).effLevel ≤ dst.2.1 + d) := by
  have hacc := mem_potential_sources_accept cfg targetsConfig treeStructures
    pmaps peers dst src hmem
  constructor
  · intro t l k h
    subst h
    rw [acceptSource] at hacc
    simp only [Bool.and_eq_true] at hacc
    have hdiff := hacc.1.1.2
    rw [hd, levelDiffOk] at hdiff
    simpa using hdiff
  · intro i h hng
    subst h
    rw [acceptSource] at hacc
    simp only [Bool.and_eq_true, Bool.or_eq_true] at hacc
    rcases hacc.1.2 with hgen | hdiff
    · rw [hng] at hgen
      exact absurd hgen (by simp)
    · rw [hd, levelDiffOk] at hdiff
      simpa using hdiff

/-- Witness for the amended C6: a fixed peer source under
`MAX_LEVEL_DIFF = 1` respects the cap. -/
theorem C6_witness :
    (some 1 : Option Nat) = some 1 ∧
    ((((0, 0, 0) : Node3), SrcId.peer 0) ∈ potential_sources_entries
      ⟨false, some 1, false, "all"⟩ [⟨[1, 1], [2, 2]⟩] [[((0, 0), [])]]
      (fun _ _ => 4) [PeerNode.fixed (0, 1, 0) (0, 1, 1) 2]) ∧
    (([PeerNode.fixed ((0, 1, 0) : Node3) (0, 1, 1) 2].getD 0
      (PeerNode.generic 0 [])).isGeneric = false →
      ([PeerNode.fixed ((0, 1, 0) : Node3) (0, 1, 1) 2].getD 0
        (PeerNode.generic 0 [])).effLevel ≤ 0 + 1) := by
  refine ⟨rfl, by decide, ?_⟩
  exact (C6_max_level_diff ⟨false, some 1, false, "all"⟩ [⟨[1, 1], [2, 2]⟩]
    [[((0, 0), [])]] (fun _ _ => 4) [PeerNode.fixed (0, 1, 0) (0, 1, 1) 2]
    1 rfl (0, 0, 0) (SrcId.peer 0) (by decide)).2 0 rfl

/-! ## §5  OrToolsSolver (`core/solver/engine.py`)

The external CP solver is opaque; the embedding records the decision
variables the builder creates (in creation order), the linear constraints
it asserts, and the objective it selects, as data.  A variable assignment
is a function `VarId → Int`; a constraint is satisfied pointwise. -/

/-- Decision-variable identifiers, one constructor per variable family of
`_define_or_tools_variables`. -/
inductive VarId where
  | ratio (t l k reagent : Nat)
  | reagentVol (t l k reagent : Nat)
  | shareIntra (t l k : Nat) (key : String)
  | shareInter (t l k : Nat) (key : String)
  | totalInput (t l k : Nat)
  | isActive (t l k : Nat)
  | wasteVar (t l k : Nat)
  | peerRatio (i reagent : Nat)
  | peerTotalInput (i : Nat)
  | peerIsActive (i : Nat)
  | peerWaste (i : Nat)
  | peerInput (i : Nat) (key : String)
deriving DecidableEq, Repr

/-- Linear constraints over integer variables:
`Σ coeff·var ≥ c` and `Σ coeff·var = c`. -/
inductive CpCon where
  | ge (terms : List (Int × VarId)) (c : Int)
  | eqc (terms : List (Int × VarId)) (c : Int)
deriving DecidableEq

def evalTerms (σ : VarId → Int) (ts : List (Int × VarId)) : Int :=
  (ts.map (fun t => t.1 * σ t.2)).sum

def CpCon.sat (σ : VarId → Int) : CpCon → Prop
  | .ge ts c => c ≤ evalTerms σ ts
  | .eqc ts c => evalTerms σ ts = c

instance (σ : VarId → Int) (c : CpCon) : Decidable (c.sat σ) :=
  match c with
  | .ge ts c => inferInstanceAs (Decidable (c ≤ evalTerms σ ts))
  | .eqc ts c => inferInstanceAs (Decidable (evalTerms σ ts = c))

/-- The problem data the variable/constraint builder consumes: the DFMM
node ids, the number of reagents and peer nodes, and the per-node sharing
variable keys prepared by `MTWMProblem._define_sharing_variables` (and the
per-peer input-variable keys). -/
structure SolverProblem where
  numReagents : Nat
  dfmmNodes : List Node3
  numPeers : Nat
  intraKeys : Node3 → List String
  interKeys : Node3 → List String
  peerInputKeys : Nat → List String

/-- `_define_or_tools_variables`: all decision variables, in creation
order — per DFMM node its ratio, reagent-volume, total-input, activity,
waste and sharing variables; then per peer node its ratio, total-input,
activity, waste and input variables. -/
def defineOrToolsVariables (p : SolverProblem) : List VarId :=
  (p.dfmmNodes.flatMap (fun nd =>
    ((List.range p.numReagents).map (fun r =>
      VarId.ratio nd.1 nd.2.1 nd.2.2 r)) ++
    ((List.range p.numReagents).map (fun r =>
      VarId.reagentVol nd.1 nd.2.1 nd.2.2 r)) ++
    [VarId.totalInput nd.1 nd.2.1 nd.2.2,
     VarId.isActive nd.1 nd.2.1 nd.2.2,
     VarId.wasteVar nd.1 nd.2.1 nd.2.2] ++
    (p.intraKeys nd).map (VarId.shareIntra nd.1 nd.2.1 nd.2.2) ++
    (p.interKeys nd).map (VarId.shareInter nd.1 nd.2.1 nd.2.2))) ++
  ((List.range p.numPeers).flatMap (fun i =>
    ((List.range p.numReagents).map (VarId.peerRatio i)) ++
    [VarId.peerTotalInput i, VarId.peerIsActive i, VarId.peerWaste i] ++
    (p.peerInputKeys i).map (VarId.peerInput i)))

/-- The non-root DFMM nodes (`src_level != 0`), whose waste variables
enter the waste objective. -/
def nonRootDfmm (p : SolverProblem) : List Node3 :=
  p.dfmmNodes.filter (fun nd => nd.2.1 ≠ 0)

/-- `all_waste_vars`: waste variables of every non-root DFMM node and of
every peer node. -/
def allWasteVars (p : SolverProblem) : List VarId :=
  (nonRootDfmm p).map (fun nd => VarId.wasteVar nd.1 nd.2.1 nd.2.2) ++
  (List.range p.numPeers).map VarId.peerWaste

def allActivityVars (p : SolverProblem) : List VarId :=
  p.dfmmNodes.map (fun nd => VarId.isActive nd.1 nd.2.1 nd.2.2) ++
  (List.range p.numPeers).map VarId.peerIsActive

def allReagentVars (p : SolverProblem) : List VarId :=
  p.dfmmNodes.flatMap (fun nd =>
    (List.range p.numReagents).map (fun r =>
      VarId.reagentVol nd.1 nd.2.1 nd.2.2 r))

/-- `waste_var == total_prod - total_used` as the linear equality
`waste - totalInput + Σ outgoing = 0`. -/
def wasteEqCon (nd : Node3) (outgoing : List VarId) : CpCon :=
  .eqc (((1 : Int), VarId.wasteVar nd.1 nd.2.1 nd.2.2) ::
    ((-1 : Int), VarId.totalInput nd.1 nd.2.1 nd.2.2) ::
    outgoing.map (fun v => ((1 : Int), v))) 0

def peerWasteEqCon (i : Nat) (outgoing : List VarId) : CpCon :=
  .eqc (((1 : Int), VarId.peerWaste i) ::
    ((-1 : Int), VarId.peerTotalInput i) ::
    outgoing.map (fun v => ((1 : Int), v))) 0

/-- `_set_objective_function`: the waste-definition equalities (non-root
DFMM nodes and peer nodes), in waste mode additionally the hard constraint
`total_waste >= 1`, and the objective terms for the selected mode; an
unknown mode raises `ValueError` (modeled as `Except.error`).  The
outgoing-variable lookups `_get_outgoing_vars` are passed as functions. -/
def setObjectiveFunction (p : SolverProblem)
    (outgoing : Node3 → List VarId) (outgoingPeer : Nat → List VarId)
    (mode : String) :
    List CpCon × Except String (List (Int × VarId)) :=
  let wasteEqs :=
    (nonRootDfmm p).map (fun nd => wasteEqCon nd (outgoing nd)) ++
    (List.range p.numPeers).map (fun i => peerWasteEqCon i (outgoingPeer i))
  let cons := if mode = "waste"
    then wasteEqs ++
      [CpCon.ge ((allWasteVars p).map (fun v => ((1 : Int), v))) 1]
    else wasteEqs
  (cons,
    if mode = "waste" then
      .ok ((allWasteVars p).map (fun v => ((1 : Int), v)))
    else if mode = "operations" then
      .ok ((allActivityVars p).map (fun v => ((1 : Int), v)))
    else if mode = "reagents" then
      .ok ((allReagentVars p).map (fun v => ((1 : Int), v)))
    else .error ("Unknown optimization mode: " ++ mode))

/-- The state of the model builder when `__init__` finishes or aborts. -/
structure BuildResult where
  varsCreated : List VarId
  constraints : List CpCon
  objective : Option (List (Int × VarId))
  raisedError : Option String
deriving DecidableEq

/-- `_set_variables_and_constraints`: variables are defined first
(`_define_or_tools_variables`), then the constraint families are asserted
(abstracted here as `otherCons` — none of them raises a configuration
error), and `_set_objective_function` runs last, raising on an unknown
objective mode.  The returned record reflects the builder state at the
moment construction finishes or the error is raised. -/
def setVariablesAndConstraints (p : SolverProblem)
    (outgoing : Node3 → List VarId) (outgoingPeer : Nat → List VarId)
    (otherCons : List CpCon) (mode : String) : BuildResult :=
  let vars := defineOrToolsVariables p
  let r := setObjectiveFunction p outgoing outgoingPeer mode
  match r.2 with
  | .error e => ⟨vars, otherCons ++ r.1, none, some e⟩
  | .ok obj => ⟨vars, otherCons ++ r.1, some obj, none⟩

/-- `OrToolsSolver.__init__`: configures the solver then builds variables
and constraints; no solve happens during construction. -/
def orToolsSolverInit (p : SolverProblem)
    (outgoing : Node3 → List VarId) (outgoingPeer : Nat → List VarId)
    (otherCons : List CpCon) (mode : String) : BuildResult :=
  setVariablesAndConstraints p outgoing outgoingPeer otherCons mode

/-- External solver statuses. -/
inductive CpStatus where
  | optimal
  | feasible
  | infeasible
  | modelInvalid
  | unknown
deriving DecidableEq, Repr

/-- `OrToolsSolver.solve`: on OPTIMAL or FEASIBLE builds the solution
model and its analysis; on any other status returns a null solution model,
null value, null analysis — and never raises (no `raise` occurs in the
method, hence the result is always `Except.ok`). -/
def solveDispatch {α β : Type} (status : CpStatus) (objVal : Int)
    (buildModel : Unit → α) (analyze : α → β) :
    Except String (Option α × Option Int × Option β) :=
  if status = .optimal ∨ status = .feasible then
    let m := buildModel ()
    .ok (some m, some objVal, some (analyze m))
  else
    .ok (none, none, none)

/-- A small concrete problem: one root node, one level-1 node, one
reagent, no peers, no sharing keys. -/
def sampleProblem : SolverProblem :=
  ⟨1, [(0, 0, 0), (0, 1, 0)], 0, fun _ => [], fun _ => [], fun _ => []⟩

/-- **C8 counterexample**: constructing the solver with the unknown
objective mode `"foo"` does raise the configuration error, but the
decision variables have already been created when it is raised — the
abort does not happen before variable creation. -/
theorem C8_counterexample :
    (orToolsSolverInit sampleProblem (fun _ => []) (fun _ => []) []
      "foo").raisedError = some ("Unknown optimization mode: " ++ "foo") ∧
    (orToolsSolverInit sampleProblem (fun _ => []) (fun _ => []) []
      "foo").varsCreated ≠ [] := by
  constructor
  · rfl
  · decide

/-- **C8 (amended)**: for every objective mode outside
`{"waste", "operations", "reagents"}`, construction raises the explicit
configuration error (so no solving ever begins and no objective is set) —
but only after all decision variables have been created, since
`_define_or_tools_variables` runs before `_set_objective_function`. -/
theorem C8_unknown_mode_raises (p : SolverProblem)
    (outgoing : Node3 → List VarId) (outgoingPeer : Nat → List VarId)
    (otherCons : List CpCon) (mode : String)
    (hmode : mode ≠ "waste" ∧ mode ≠ "operations" ∧ mode ≠ "reagents") :
    (orToolsSolverInit p outgoing outgoingPeer otherCons mode).raisedError =
      some ("Unknown optimization mode: " ++ mode) ∧
    (orToolsSolverInit p outgoing outgoingPeer otherCons mode).objective =
      none ∧
    (orToolsSolverInit p outgoing outgoingPeer otherCons mode).varsCreated =
      defineOrToolsVariables p := by
  obtain ⟨h1, h2, h3⟩ := hmode
  rw [orToolsSolverInit, setVariablesAndConstraints]
  simp only [setObjectiveFunction, if_neg h1, if_neg h2, if_neg h3]
  refine ⟨?_, ?_, ?_⟩ <;> trivial

/-- Witness for the amended C8 at mode `"foo"`. -/
theorem C8_witness :
    ("foo" ≠ "waste" ∧ "foo" ≠ "operations" ∧ "foo" ≠ "reagents") ∧
    (orToolsSolverInit sampleProblem (fun _ => []) (fun _ => []) []
      "foo").varsCreated = defineOrToolsVariables sampleProblem := by
  refine ⟨⟨by decide, by decide, by decide⟩, ?_⟩
  exact (C8_unknown_mode_raises sampleProblem (fun _ => []) (fun _ => []) []
    "foo" ⟨by decide, by decide, by decide⟩).2.2

/-- **C9**: whenever the external solver's status is neither OPTIMAL nor
FEASIBLE, `solve` returns normally — no exception — with a null solution
model, null objective value and null analysis. -/
theorem C9_solve_null_on_failure {α β : Type} (status : CpStatus)
    (hstatus : status ≠ .optimal ∧ status ≠ .feasible) (objVal : Int)
    (buildModel : Unit → α) (analyze : α → β) :
    solveDispatch status objVal buildModel analyze = .ok (none, none, none) := by
  rw [solveDispatch, if_neg (by tauto)]

/-- Witness for C9 at the INFEASIBLE status. -/
theorem C9_witness :
    ((CpStatus.infeasible ≠ CpStatus.optimal ∧
      CpStatus.infeasible ≠ CpStatus.feasible)) ∧
    solveDispatch CpStatus.infeasible 0 (fun _ => ()) (fun _ => ()) =
      .ok (none, none, none) :=
  ⟨⟨by decide, by decide⟩,
    C9_solve_null_on_failure CpStatus.infeasible ⟨by decide, by decide⟩ 0
      (fun _ => ()) (fun _ => ())⟩

theorem evalTerms_ones (σ : VarId → Int) (l : List VarId) :
    evalTerms σ (l.map (fun v => ((1 : Int), v))) = (l.map σ).sum := by
  induction l with
  | nil => rfl
  | cons x xs ih =>
    simp only [evalTerms, List.map_cons, List.sum_cons] at ih ⊢
    omega

/-- **C10**: in waste mode the builder asserts the hard constraint that
the waste variables of all non-root DFMM nodes and all peer nodes sum to
at least 1; every admissible assignment therefore has total waste at least
1 (never 0), and no root-level waste variable occurs in the sum. -/
theorem C10_waste_mode_positive (p : SolverProblem)
    (outgoing : Node3 → List VarId) (outgoingPeer : Nat → List VarId) :
    (CpCon.ge ((allWasteVars p).map (fun v => ((1 : Int), v))) 1 ∈
      (setObjectiveFunction p outgoing outgoingPeer "waste").1) ∧
    (∀ σ : VarId → Int,
      (∀ c ∈ (setObjectiveFunction p outgoing outgoingPeer "waste").1,
        c.sat σ) →
      1 ≤ ((allWasteVars p).map σ).sum ∧ ((allWasteVars p).map σ).sum ≠ 0) ∧
    (∀ t k, VarId.wasteVar t 0 k ∉ allWasteVars p) := by
  have hmem : CpCon.ge ((allWasteVars p).map (fun v => ((1 : Int), v))) 1 ∈
      (setObjectiveFunction p outgoing outgoingPeer "waste").1 := by
    rw [setObjectiveFunction]
    simp only [if_pos rfl]
    exact List.mem_append.mpr (Or.inr (List.mem_singleton.mpr rfl))
  refine ⟨hmem, ?_, ?_⟩
  · intro σ hsat
    have := hsat _ hmem
    rw [CpCon.sat, evalTerms_ones] at this
    exact ⟨this, by omega⟩
  · intro t k hmemw
    rw [allWasteVars] at hmemw
    rcases List.mem_append.mp hmemw with h | h
    · simp only [List.mem_map] at h
      obtain ⟨nd, hnd, heq⟩ := h
      rw [nonRootDfmm, List.mem_filter] at hnd
      injection heq with e1 e2 e3
      rw [e2] at hnd
      simpa using hnd.2
    · simp only [List.mem_map] at h
      obtain ⟨i, _, heq⟩ := h
      exact VarId.noConfusion heq

/-- Witness for C10: a concrete assignment satisfying the waste-mode
constraints on `sampleProblem` has total waste at least 1. -/
theorem C10_witness :
    (∀ c ∈ (setObjectiveFunction sampleProblem (fun _ => []) (fun _ => [])
      "waste").1, c.sat (fun _ => 1)) ∧
    1 ≤ ((allWasteVars sampleProblem).map (fun _ => (1 : Int))).sum := by
  constructor
  · decide
  · exact ((C10_waste_mode_positive sampleProblem (fun _ => [])
      (fun _ => [])).2.1 (fun _ => 1) (by decide)).1

end MTWM
